import Mathlib

/-!
Shallow embedding of the base-calling core of AYB2 and verification of the
frozen claims about it.

Conventions used throughout this development:

* `real_t` values are modelled as exact rationals `ℚ`, so floating-point
  rounding, overflow to infinity and NaN are outside the model.
* An AYB `MAT` with `nrow` rows and `ncol` columns stores its entries
  column-major: the C access `A->x[j*nrow+i]` is entry `(i, j)` (row `i`,
  column `j`).  A matrix is embedded as `Matrix (Fin nrow) (Fin ncol) ℚ`
  and the flat access `A->x[j*nrow+i]` is translated as `A i j`.
* In-place mutation in the C source becomes explicit value passing: a
  function that overwrites one of its arguments returns the new value
  of that argument instead.
* Fallible C code (returning `NULL` on a failed `validate`) is embedded
  with `Option`.
-/

/-- Dense real matrix of the AYB matrix kernel (`struct _matrix_str`),
with the row/column dimensions lifted into the type. -/
abbrev Mat (r c : ℕ) : Type := Matrix (Fin r) (Fin c) ℚ

/-- Matrix product, `(A*B) i j = Σ k, A i k * B k j`. -/
def matMul {r m c : ℕ} (A : Mat r m) (B : Mat m c) : Mat r c :=
  fun i j => ∑ k, A i k * B k j

/-- Matrix transpose (the `transpose` operation of the matrix kernel,
which returns a fresh matrix). -/
def matTranspose {r c : ℕ} (A : Mat r c) : Mat c r :=
  fun i j => A j i

/-- Pointwise difference of two matrices of identical shape. -/
def matSub {r c : ℕ} (A B : Mat r c) : Mat r c :=
  fun i j => A i j - B i j

/-- Embedding of `scale_MAT(mat, f)` from matrix.c: multiply every entry
by the factor `f`. -/
def scale_MAT {r c : ℕ} (f : ℚ) (A : Mat r c) : Mat r c :=
  fun i j => f * A i j

/-- Embedding of `process_intensities` from intensities.c.

C source (the loops accumulate into the zeroed output `ip`):
`dp = Σ_chan Minv_t->x[base*NBASE+chan] * (intensities->x[icol*NBASE+chan] - N->x[icol*NBASE+chan])`
and then `ip->x[pcol*NBASE+base] += Pinv_t->x[icol*ncycle+pcol] * dp`.
With the column-major reading `A->x[j*nrow+i] = A i j` this gives the sum
below.  The `_ip` argument is the caller-supplied output shell: the code
allocates a fresh matrix when it is `NULL` and `memset`s the storage to
zero before accumulating, so the result never depends on the shell's
previous contents (which is why `_ip` is unused in the functional model:
that is the translation of the `memset`). -/
def process_intensities (nc : ℕ) (intensities : Mat 4 nc)
    (Minv_t : Mat 4 4) (Pinv_t : Mat nc nc) (N : Mat 4 nc)
    (_ip : Option (Mat 4 nc)) : Mat 4 nc :=
  fun base pcol =>
    ∑ icol, Pinv_t pcol icol *
      (∑ chan, Minv_t chan base * (intensities chan icol - N chan icol))

/-- C1: `process_intensities` computes `out = M⁻¹ (I − N) P⁻¹` where the
caller supplies the pre-transposed inverses `Minv_t = (M⁻¹)ᵀ` and
`Pinv_t = (P⁻¹)ᵀ`; entrywise
`out[b,k] = Σ j c, (P⁻¹)[j,k] * (M⁻¹)[b,c] * (I[c,j] - N[c,j])`.
The result does not depend on the output shell passed in (the shell is
`memset` to zero first), and the inputs are not mutated (the embedding is
a pure function of them). -/
theorem process_intensities_spec (nc : ℕ) (I : Mat 4 nc)
    (Minv_t : Mat 4 4) (Pinv_t : Mat nc nc) (N : Mat 4 nc)
    (s₁ s₂ : Option (Mat 4 nc)) :
    (∀ b k, process_intensities nc I Minv_t Pinv_t N s₁ b k
        = ∑ j, ∑ c, matTranspose Pinv_t j k * matTranspose Minv_t b c
            * (I c j - N c j))
    ∧ process_intensities nc I Minv_t Pinv_t N s₁
        = matMul (matMul (matTranspose Minv_t) (matSub I N)) (matTranspose Pinv_t)
    ∧ process_intensities nc I Minv_t Pinv_t N s₁
        = process_intensities nc I Minv_t Pinv_t N s₂ := by
  refine ⟨fun b k => ?_, ?_, rfl⟩
  · unfold process_intensities matTranspose
    refine Finset.sum_congr rfl fun j _ => ?_
    rw [Finset.mul_sum]
    refine Finset.sum_congr rfl fun c _ => ?_
    ring
  · funext b k
    unfold process_intensities matMul matTranspose matSub
    refine Finset.sum_congr rfl fun j _ => ?_
    rw [Finset.mul_sum, Finset.sum_mul]
    refine Finset.sum_congr rfl fun c _ => ?_
    ring

/-- Nucleotide code `NUC` (nuc.h, not under src/).  Modelled from the spec:
`bases: array of NUC (A,C,G,T or AMBIG)` with `A,C,G,T` the values `0..3`
used to index the crosstalk matrix and `NUC_AMBIG` the out-of-range
value `4` (code guards matrix indexing with `isambig` / `cybase<NBASE`). -/
abbrev NUC : Type := Fin 5

/-- The ambiguous base call. -/
def NUC_AMBIG : NUC := 4

/-- Embedding of `isambig` (nuc.h, not under src/): a call is ambiguous
exactly when it is `NUC_AMBIG`. -/
def isambig (b : NUC) : Bool := decide (b = NUC_AMBIG)

/-- Raw index used when a `NUC` subscripts a `B`-sized dimension (the C
code reads `x[base*NBASE+ch]` with `base` the integer value of the call;
every such read in the embedded code paths is guarded so that
`base < NBASE`, and the default branch below is never reached there). -/
def baseIdx (b : NUC) : Fin 4 :=
  if h : b.val < 4 then ⟨b.val, h⟩ else 0

/-- Embedding of `max_real_t` from call_bases.c: first-found index of the
maximal entry; `m` starts at `p[0]`, `idx` at `0`, and `idx` is replaced
only on a strictly greater entry. -/
def max_real_t (p : Fin 4 → ℚ) : Fin 4 :=
  (List.foldl (fun (st : Fin 4 × ℚ) i => if p i > st.2 then (i, p i) else st)
    (0, p 0) [1, 2, 3]).1

/-- Embedding of `call_base_simple` from call_bases.c: the initial caller
returns `max_real_t(p, NBASE)`, an index in `0..3` viewed as a `NUC`. -/
def call_base_simple (p : Fin 4 → ℚ) : NUC :=
  (max_real_t p).castSucc

/-- C5 counterexample: on four equal intensities `call_base_simple`
returns base `A` (index 0), not `NUC_AMBIG` as the claim states. -/
theorem call_base_simple_all_equal_counterexample :
    call_base_simple (fun _ => (1 : ℚ)) = (0 : NUC)
    ∧ call_base_simple (fun _ => (1 : ℚ)) ≠ NUC_AMBIG := by
  constructor <;> decide

/-- C5 amended: `call_base_simple` returns the first-found argmax of the
four processed intensities and never returns `NUC_AMBIG`; in particular
on all-equal input it returns base `A`.  (The non-finite case of the
original claim is outside the exact-rational model; in the code a NaN
input also yields index 0, not AMBIG, since all comparisons fail.) -/
theorem call_base_simple_amended (p : Fin 4 → ℚ) :
    call_base_simple p ≠ NUC_AMBIG
    ∧ (∀ j, p j ≤ p (max_real_t p))
    ∧ (∀ j, j < max_real_t p → p j < p (max_real_t p)) := by
  refine ⟨?_, ?_⟩
  · intro h
    have hv : (max_real_t p).castSucc.val = (NUC_AMBIG : Fin 5).val :=
      congrArg Fin.val h
    have hlt : (max_real_t p).val < 4 := (max_real_t p).isLt
    simp only [Fin.coe_castSucc] at hv
    have : (NUC_AMBIG : Fin 5).val = 4 := rfl
    omega
  · unfold max_real_t
    simp only [List.foldl]
    split_ifs with h1 h2 h3 h3 h2 h3 h3 <;>
      refine ⟨fun j => ?_, fun j hj => ?_⟩ <;> fin_cases j <;>
      simp_all <;> linarith

/-- Quality floor `MIN_QUALITY`.  Modelled from the spec: the historical
AYB quality range has `MIN_QUALITY = 0` (the exact value is irrelevant to
the claims below). -/
def MIN_QUALITY : ℚ := 0

/-- Bilinear form `xᵀ M y` (`xMy` of utility.h, not under src/; modelled
from the spec of the matrix kernel operation `x_M_y`). -/
def xMy (x : Fin 4 → ℚ) (M : Mat 4 4) (y : Fin 4 → ℚ) : ℚ :=
  ∑ i, ∑ j, x i * M i j * y j

/-- The least-squares statistic computed by the first loop of `call_base`
(call_bases.c): `stat[i] = lambda*omega->x[i*NBASE+i]`, then
`stat[i] -= 2*p[j]*omega->x[i*NBASE+j]` for each `j`, then
`stat[i] *= lambda; stat[i] += penalty[i]`.  Column-major,
`omega->x[i*NBASE+j]` is entry `(j, i)` of `omega`. -/
def callStat (p : Fin 4 → ℚ) (lambda : ℚ) (penalty : Fin 4 → ℚ)
    (omega : Mat 4 4) (i : Fin 4) : ℚ :=
  (lambda * omega i i - ∑ j, 2 * p j * omega j i) * lambda + penalty i

/-- Comparison of a finite statistic against the running minimum, which
starts at `HUGE_VAL` (represented by `none`): every rational is below
`HUGE_VAL`. -/
def ltHuge (x : ℚ) : Option ℚ → Bool
  | none => true
  | some m => decide (x < m)

/-- The argmin loop of `call_base`: `call = 0`, `minstat = HUGE_VAL`, and
for `i = 0..3`, if `stat[i] < minstat` then `minstat = stat[i]; call = i`. -/
def callLoop (stat : Fin 4 → ℚ) : Fin 4 × Option ℚ :=
  List.foldl
    (fun (st : Fin 4 × Option ℚ) i =>
      if ltHuge (stat i) st.2 then (i, some (stat i)) else st)
    (0, none) [0, 1, 2, 3]

/-- Embedding of `call_base` from call_bases.c.  The transcendental
`exp` of libm and the Phred mapping `quality_from_prob` are code external
to this repository and are passed in as the function arguments `fexp` and
`qualityFromProb`; `Mu` is the module parameter set by `set_mu`.
Returns the pair (called base, quality). -/
def call_base (p : Fin 4 → ℚ) (lambda : ℚ) (penalty : Fin 4 → ℚ)
    (omega : Mat 4 4) (fexp qualityFromProb : ℚ → ℚ) (Mu : ℚ) :
    Fin 4 × ℚ :=
  if lambda = 0 then (0, MIN_QUALITY)
  else
    let stat := callStat p lambda penalty omega
    let r := callLoop stat
    let call := r.1
    let minstat := (r.2).getD 0
    let tot := ∑ i, fexp (-(1/2) * (stat i - minstat))
    let Kq := xMy p omega p
    let maxprob := fexp (-(1/2) * (Kq + minstat))
    let exp_pen := fexp (-(1/2) * penalty call)
    let post_prob :=
      if maxprob < Mu then
        (exp_pen * Mu + maxprob) / (4 * Mu + maxprob * tot)
      else
        (exp_pen * Mu / maxprob + 1) / (4 * Mu / maxprob + tot)
    (call, qualityFromProb post_prob)

/-- Helper: the argmin loop of `call_base` returns the first index
attaining the minimum of the four statistics. -/
theorem callLoop_argmin (stat : Fin 4 → ℚ) :
    (∀ j, stat (callLoop stat).1 ≤ stat j)
    ∧ (∀ j, j < (callLoop stat).1 → stat (callLoop stat).1 < stat j) := by
  unfold callLoop
  simp only [List.foldl, ltHuge]
  split_ifs <;>
    refine ⟨fun j => ?_, fun j hj => ?_⟩ <;> fin_cases j <;>
    simp_all <;> linarith

/-- C4: for positive `lambda` and symmetric `omega` (an inverse
covariance matrix), `call_base` scores each base by
`stat[b] = λ²·Ω[b,b] − 2λ·Σⱼ p[j]·Ω[b,j] + penalty[b]` and returns the
base minimising the statistic, ties broken in favour of the first base
in the order `A < C < G < T` (earlier indices win: any strictly smaller
index would have a strictly smaller statistic). -/
theorem call_base_spec (p : Fin 4 → ℚ) (lambda : ℚ) (penalty : Fin 4 → ℚ)
    (omega : Mat 4 4) (fexp qualityFromProb : ℚ → ℚ) (Mu : ℚ)
    (hl : 0 < lambda) (hsym : ∀ i j, omega i j = omega j i) :
    (∀ b, callStat p lambda penalty omega b
        = lambda ^ 2 * omega b b - 2 * lambda * (∑ j, p j * omega b j)
          + penalty b)
    ∧ (∀ j, callStat p lambda penalty omega
          (call_base p lambda penalty omega fexp qualityFromProb Mu).1
        ≤ callStat p lambda penalty omega j)
    ∧ (∀ j, j < (call_base p lambda penalty omega fexp qualityFromProb Mu).1 →
        callStat p lambda penalty omega
            (call_base p lambda penalty omega fexp qualityFromProb Mu).1
          < callStat p lambda penalty omega j) := by
  have hcall : (call_base p lambda penalty omega fexp qualityFromProb Mu).1
      = (callLoop (callStat p lambda penalty omega)).1 := by
    unfold call_base
    rw [if_neg (ne_of_gt hl)]
  refine ⟨fun b => ?_, ?_, ?_⟩
  · unfold callStat
    have h1 : (∑ j, 2 * p j * omega j b) = 2 * ∑ j, p j * omega b j := by
      rw [Finset.mul_sum]
      refine Finset.sum_congr rfl fun j _ => ?_
      rw [hsym j b]; ring
    rw [h1]; ring
  · rw [hcall]; exact (callLoop_argmin _).1
  · rw [hcall]; exact (callLoop_argmin _).2

/-- Witness for `call_base_spec` at a concrete input. -/
theorem call_base_spec_witness :
    (0 : ℚ) < 1 ∧ (∀ i j : Fin 4, (1 : Mat 4 4) i j = (1 : Mat 4 4) j i)
    ∧ ((∀ b, callStat (fun _ => 0) 1 (fun _ => 0) 1 b
          = 1 ^ 2 * (1 : Mat 4 4) b b
            - 2 * 1 * (∑ j, (0:ℚ) * (1 : Mat 4 4) b j) + 0)
      ∧ (∀ j, callStat (fun _ => 0) 1 (fun _ => 0) 1
            (call_base (fun _ => 0) 1 (fun _ => 0) 1 id id 1).1
          ≤ callStat (fun _ => 0) 1 (fun _ => 0) 1 j)
      ∧ (∀ j, j < (call_base (fun _ => 0) 1 (fun _ => 0) 1 id id 1).1 →
          callStat (fun _ => 0) 1 (fun _ => 0) 1
              (call_base (fun _ => 0) 1 (fun _ => 0) 1 id id 1).1
            < callStat (fun _ => 0) 1 (fun _ => 0) 1 j)) := by
  refine ⟨by norm_num, fun i j => ?_, ?_⟩
  · by_cases h : i = j
    · rw [h]
    · simp [Matrix.one_apply, h, Ne.symm h]
  · exact call_base_spec (fun _ => 0) 1 (fun _ => 0) 1 id id 1
      (by norm_num) (fun i j => by
        by_cases h : i = j
        · rw [h]
        · simp [Matrix.one_apply, h, Ne.symm h])

/-- Embedding of `has_ambiguous_base` (nuc.h, not under src/): whether
any of the `ncycle` calls is ambiguous. -/
def has_ambiguous_base {nc : ℕ} (bases : Fin nc → NUC) : Bool :=
  decide (∃ cy, isambig (bases cy) = true)

/-- Embedding of `expected_intensities` from intensities.c.  The output
shell `_e` is `memset` to zero, so the result is independent of it.  The
code accumulates `e->x[cy2*NBASE+ch] += M->x[base*NBASE+ch] *
P->x[cy2*ncycle+cy]` — that is, entry `(ch, cy2)` gains
`M ch base * P cy cy2` — over all cycles `cy`, in a branch that skips
ambiguous calls when any call is ambiguous and an unguarded branch
otherwise; afterwards `e` is scaled by `lambda` (`scale_MAT`) and the
noise `N` is added entrywise. -/
def expected_intensities (nc : ℕ) (lambda : ℚ) (bases : Fin nc → NUC)
    (M : Mat 4 4) (P : Mat nc nc) (N : Mat 4 nc)
    (_e : Option (Mat 4 nc)) : Mat 4 nc :=
  fun ch cy2 =>
    lambda *
      (if has_ambiguous_base bases then
        ∑ cy, (if isambig (bases cy) then 0
               else M ch (baseIdx (bases cy)) * P cy cy2)
      else
        ∑ cy, M ch (baseIdx (bases cy)) * P cy cy2)
    + N ch cy2

/-- C10: the predicted intensity matrix equals `lambda` times the sum,
over the cycles whose call is not ambiguous, of
`M[:, bases[cy]] * P[cy, :]`, plus the noise `N`.  A cycle called
`NUC_AMBIG` contributes nothing beyond noise, and when every call is
ambiguous the result is exactly `N`. -/
theorem expected_intensities_spec (nc : ℕ) (lambda : ℚ)
    (bases : Fin nc → NUC) (M : Mat 4 4) (P : Mat nc nc) (N : Mat 4 nc)
    (s : Option (Mat 4 nc)) :
    (∀ ch cy2, expected_intensities nc lambda bases M P N s ch cy2
        = lambda * (∑ cy ∈ Finset.univ.filter (fun cy => ¬ isambig (bases cy) = true),
            M ch (baseIdx (bases cy)) * P cy cy2) + N ch cy2)
    ∧ ((∀ cy, bases cy = NUC_AMBIG) →
        expected_intensities nc lambda bases M P N s = fun ch cy2 => N ch cy2) := by
  have key : ∀ ch cy2, expected_intensities nc lambda bases M P N s ch cy2
      = lambda * (∑ cy ∈ Finset.univ.filter (fun cy => ¬ isambig (bases cy) = true),
          M ch (baseIdx (bases cy)) * P cy cy2) + N ch cy2 := by
    intro ch cy2
    unfold expected_intensities
    by_cases hamb : has_ambiguous_base bases
    · rw [if_pos hamb, Finset.sum_filter]
      congr 1
      congr 1
      refine Finset.sum_congr rfl fun cy _ => ?_
      by_cases h : isambig (bases cy) <;> simp [h]
    · rw [if_neg hamb]
      have hnone : ∀ cy, ¬ isambig (bases cy) = true := by
        intro cy hcy
        exact hamb (by unfold has_ambiguous_base; exact decide_eq_true ⟨cy, hcy⟩)
      have hfil : Finset.univ.filter (fun cy => ¬ isambig (bases cy) = true)
          = (Finset.univ : Finset (Fin nc)) := by
        refine Finset.filter_true_of_mem fun cy _ => hnone cy
      rw [hfil]
  refine ⟨key, fun hall => ?_⟩
  funext ch cy2
  rw [key ch cy2]
  have hfil : Finset.univ.filter (fun cy => ¬ isambig (bases cy) = true)
      = (∅ : Finset (Fin nc)) := by
    refine Finset.filter_false_of_mem fun cy _ => ?_
    intro hne
    exact hne (by unfold isambig; rw [hall cy]; exact decide_eq_true rfl)
  rw [hfil, Finset.sum_empty, mul_zero, zero_add]

/-- Per-cluster data that `calculate_covariance` reads from the model
state: robustness weight `we`, brightness `lambda`, the cluster's current
base calls and its raw intensities (`node->elt->signals`). -/
structure ClusterInfo (nc : ℕ) where
  we : ℚ
  lambda : ℚ
  bases : Fin nc → NUC
  signals : Mat 4 nc

/-- Indicator (unit) vector `I_b` with the `b`-th element 1. -/
def eb (b : Fin 4) : Fin 4 → ℚ := fun r => if r = b then 1 else 0

/-- The pure part of the `V += R Rᵗ` accumulation of
`accumulate_covariance` (ayb_model.c).  Per cycle, with `b` the current
call: `V[cycle]->x[i*NBASE+j] += we*p[i]*p[j]` (all `i,j`),
`V[cycle]->x[b*NBASE+i] -= we*lambda*p[i]` and
`V[cycle]->x[i*NBASE+b] -= we*lambda*p[i]` (all `i`), and
`V[cycle]->x[b*NBASE+b] += we*lambda*lambda`.  Column-major,
`x[i*NBASE+j]` is entry `(j, i)`. -/
def accumV (nc : ℕ) (we : ℚ) (p : Mat 4 nc) (lambda : ℚ)
    (bases : Fin nc → NUC) (V : Fin nc → Mat 4 4) : Fin nc → Mat 4 4 :=
  fun cycle r c =>
    V cycle r c + we * p r cycle * p c cycle
      - (if c = baseIdx (bases cycle) then we * lambda * p r cycle else 0)
      - (if r = baseIdx (bases cycle) then we * lambda * p c cycle else 0)
      + (if r = baseIdx (bases cycle) ∧ c = baseIdx (bases cycle) then
          we * lambda * lambda else 0)

/-- The residual overwrite at the end of `accumulate_covariance`:
`p->x[cy*NBASE+base[cy]] -= lambda` for every cycle, i.e. entry
`(base[cy], cy)` of the processed-intensity matrix loses `lambda`. -/
def residualOf (nc : ℕ) (p : Mat 4 nc) (lambda : ℚ)
    (bases : Fin nc → NUC) : Mat 4 nc :=
  fun r cy => p r cy - (if r = baseIdx (bases cy) then lambda else 0)

/-- Embedding of `accumulate_covariance` from ayb_model.c.  The function
`validate`s `cybase < NBASE` for every cycle and returns `NULL` on
failure; on success it returns the updated covariance array together
with the residual that overwrites the processed-intensity matrix `p`
in place. -/
def accumulate_covariance (nc : ℕ) (we : ℚ) (p : Mat 4 nc) (lambda : ℚ)
    (bases : Fin nc → NUC) (V : Fin nc → Mat 4 4) :
    Option ((Fin nc → Mat 4 4) × Mat 4 nc) :=
  if ∀ cy, (bases cy).val < 4 then
    some (accumV nc we p lambda bases V, residualOf nc p lambda bases)
  else none

/-- The cluster sweep of `calculate_covariance` (ayb_model.c): process
each cluster's intensities and accumulate its covariance contribution,
propagating a `NULL` from `accumulate_covariance`.  The C passes
`V = NULL` on the first call, which allocates zero matrices, so the
sweep starts from the explicit zero array here. -/
def covSweep (nc : ℕ) (Minv_t : Mat 4 4) (Pinv_t : Mat nc nc)
    (N : Mat 4 nc) : List (ClusterInfo nc) → (Fin nc → Mat 4 4) →
    Option (Fin nc → Mat 4 4)
  | [], V => some V
  | cl :: rest, V =>
    match accumulate_covariance nc cl.we
        (process_intensities nc cl.signals Minv_t Pinv_t N none)
        cl.lambda cl.bases V with
    | none => none
    | some out => covSweep nc Minv_t Pinv_t N rest out.1

/-- Embedding of `calculate_covariance` from ayb_model.c: sweep over the
clusters accumulating `V` and `wesum = Σ we`, then scale every entry by
`1 / wesum`. -/
def calculate_covariance (nc : ℕ) (Minv_t : Mat 4 4) (Pinv_t : Mat nc nc)
    (N : Mat 4 nc) (clusters : List (ClusterInfo nc)) :
    Option (Fin nc → Mat 4 4) :=
  match covSweep nc Minv_t Pinv_t N clusters (fun _ _ _ => 0) with
  | none => none
  | some acc =>
    let wesum := (clusters.map (fun cl => cl.we)).sum
    some (fun cy r c => acc cy r c / wesum)

/-- Per-cycle residual variance extracted in `estimate_bases`
(ayb_model.c): the sum of the diagonal entries of `V[cy]` — the trace,
not its reciprocal (the reciprocal is commented out in the source). -/
def cycle_var_of (nc : ℕ) (V : Fin nc → Mat 4 4) : Fin nc → ℚ :=
  fun cy => ∑ b, V cy b b

/-- Embedding of `invert` from matrix.c (not under src/).  Modelled from
the spec: the general inverse of a square matrix, failing only on
singular input; embedded exactly as `det⁻¹ • adjugate`, which is the
matrix inverse whenever the determinant is nonzero. -/
def invert {n : ℕ} (A : Mat n n) : Mat n n :=
  (Matrix.det A)⁻¹ • Matrix.adjugate A

/-- The per-cycle inverse covariance `Ω` computed in `estimate_bases`:
`V[cy] = invert(V[cy])`. -/
def omega_of (nc : ℕ) (V : Fin nc → Mat 4 4) : Fin nc → Mat 4 4 :=
  fun cy => invert (V cy)

/-- The per-cluster, per-cycle covariance contribution in the expanded
form of the claim: `wᵢ(PPᵀ) − wᵢλᵢ(e_b Pᵀ + P e_bᵀ) + wᵢλᵢ²·e_b e_bᵀ`,
where `P` is the cluster's processed-intensity column at this cycle. -/
def covTerm (nc : ℕ) (Minv_t : Mat 4 4) (Pinv_t : Mat nc nc)
    (N : Mat 4 nc) (cl : ClusterInfo nc) (cy : Fin nc) (r c : Fin 4) : ℚ :=
  let p := process_intensities nc cl.signals Minv_t Pinv_t N none
  let b := baseIdx (cl.bases cy)
  cl.we * (p r cy * p c cy)
    - cl.we * cl.lambda * (eb b r * p c cy + p r cy * eb b c)
    + cl.we * cl.lambda * cl.lambda * (eb b r * eb b c)

/-- Helper: one `accumulate_covariance` step adds exactly the expanded
outer-product term of the claim to each entry of `V`. -/
theorem accumV_eq_covTerm (nc : ℕ) (Minv_t : Mat 4 4) (Pinv_t : Mat nc nc)
    (N : Mat 4 nc) (cl : ClusterInfo nc) (V : Fin nc → Mat 4 4) :
    ∀ cy r c, accumV nc cl.we
        (process_intensities nc cl.signals Minv_t Pinv_t N none)
        cl.lambda cl.bases V cy r c
      = V cy r c + covTerm nc Minv_t Pinv_t N cl cy r c := by
  intro cy r c
  unfold accumV covTerm eb
  by_cases hr : r = baseIdx (cl.bases cy) <;>
    by_cases hc : c = baseIdx (cl.bases cy) <;>
    simp [hr, hc] <;> ring

/-- Helper: closed form of the cluster sweep when every base call is
valid. -/
theorem covSweep_closed (nc : ℕ) (Minv_t : Mat 4 4) (Pinv_t : Mat nc nc)
    (N : Mat 4 nc) :
    ∀ (clusters : List (ClusterInfo nc))
      (_ : ∀ cl ∈ clusters, ∀ cy, (cl.bases cy).val < 4)
      (V0 : Fin nc → Mat 4 4),
      covSweep nc Minv_t Pinv_t N clusters V0
        = some (fun cy r c => V0 cy r c
            + (clusters.map (fun cl => covTerm nc Minv_t Pinv_t N cl cy r c)).sum) := by
  intro clusters
  induction clusters with
  | nil =>
    intro _ V0
    simp only [covSweep, List.map_nil, List.sum_nil, add_zero]
  | cons cl rest ih =>
    intro hvalid V0
    have hcl : ∀ cy, (cl.bases cy).val < 4 :=
      hvalid cl (List.mem_cons_self cl rest)
    have hrest : ∀ c ∈ rest, ∀ cy, (c.bases cy).val < 4 :=
      fun c hc => hvalid c (List.mem_cons_of_mem cl hc)
    unfold covSweep accumulate_covariance
    rw [if_pos hcl]
    dsimp only
    rw [ih hrest]
    congr 1
    funext cy r c
    rw [accumV_eq_covTerm nc Minv_t Pinv_t N cl _ cy r c]
    simp only [List.map_cons, List.sum_cons]
    ring

/-- C3: with all base calls valid, the covariance estimator accumulates
`wᵢ(ppᵀ) − wᵢλᵢ(e_b pᵀ + p e_bᵀ) + wᵢλᵢ²·e_b e_bᵀ` into `V_k` for every
cluster and cycle, divides each `V_k` by the sum of the weights,
extracts `cycle_var[k]` as the trace of `V_k` (not its reciprocal), and
the per-cycle `Ω` used for base calling is the matrix inverse of `V_k`
(two-sided, whenever `V_k` is nonsingular). -/
theorem calculate_covariance_spec (nc : ℕ) (Minv_t : Mat 4 4)
    (Pinv_t : Mat nc nc) (N : Mat 4 nc) (clusters : List (ClusterInfo nc))
    (hvalid : ∀ cl ∈ clusters, ∀ cy, (cl.bases cy).val < 4) :
    ∃ V, calculate_covariance nc Minv_t Pinv_t N clusters = some V
      ∧ (∀ cy r c, V cy r c
          = (clusters.map (fun cl => covTerm nc Minv_t Pinv_t N cl cy r c)).sum
            / (clusters.map (fun cl => cl.we)).sum)
      ∧ (∀ cy, cycle_var_of nc V cy = Matrix.trace (V cy))
      ∧ (∀ cy, (V cy).det ≠ 0 →
          V cy * omega_of nc V cy = 1 ∧ omega_of nc V cy * V cy = 1) := by
  unfold calculate_covariance
  rw [covSweep_closed nc Minv_t Pinv_t N clusters hvalid]
  refine ⟨_, rfl, fun cy r c => by simp, fun cy => by
      simp [cycle_var_of, Matrix.trace, Matrix.diag], fun cy hdet => ?_⟩
  constructor
  · unfold omega_of invert
    rw [Matrix.mul_smul, Matrix.mul_adjugate, smul_smul,
      inv_mul_cancel₀ hdet, one_smul]
  · unfold omega_of invert
    rw [Matrix.smul_mul, Matrix.adjugate_mul, smul_smul,
      inv_mul_cancel₀ hdet, one_smul]

/-- Concrete cluster data for the `calculate_covariance` witness: four
unit-weight clusters whose signals are the four standard basis columns,
all called base `A` with brightness 0. -/
def covWitnessClusters : List (ClusterInfo 1) :=
  [ { we := 1, lambda := 0, bases := fun _ => 0,
      signals := fun r _ => if r = 0 then 1 else 0 },
    { we := 1, lambda := 0, bases := fun _ => 0,
      signals := fun r _ => if r = 1 then 1 else 0 },
    { we := 1, lambda := 0, bases := fun _ => 0,
      signals := fun r _ => if r = 2 then 1 else 0 },
    { we := 1, lambda := 0, bases := fun _ => 0,
      signals := fun r _ => if r = 3 then 1 else 0 } ]

/-- Witness for `calculate_covariance_spec` at a concrete input. -/
theorem calculate_covariance_spec_witness :
    (∀ cl ∈ covWitnessClusters, ∀ cy, (cl.bases cy).val < 4)
    ∧ (∃ V, calculate_covariance 1 1 1 (fun _ _ => 0) covWitnessClusters = some V
      ∧ (∀ cy r c, V cy r c
          = (covWitnessClusters.map
              (fun cl => covTerm 1 1 1 (fun _ _ => 0) cl cy r c)).sum
            / (covWitnessClusters.map (fun cl => cl.we)).sum)
      ∧ (∀ cy, cycle_var_of 1 V cy = Matrix.trace (V cy))
      ∧ (∀ cy, (V cy).det ≠ 0 →
          V cy * omega_of 1 V cy = 1 ∧ omega_of 1 V cy * V cy = 1)) :=
  ⟨by decide, calculate_covariance_spec 1 1 1 (fun _ _ => 0)
    covWitnessClusters (by decide)⟩

/-- C8: after `accumulate_covariance` succeeds, the processed-intensity
matrix it was given holds the residual `R = P − λ·e_b`: per cycle, only
the entry in the row of the called base has been decreased by `lambda`,
and every other entry is unchanged. -/
theorem accumulate_covariance_residual (nc : ℕ) (we : ℚ) (p : Mat 4 nc)
    (lambda : ℚ) (bases : Fin nc → NUC) (V : Fin nc → Mat 4 4)
    (hvalid : ∀ cy, (bases cy).val < 4) :
    ∃ out, accumulate_covariance nc we p lambda bases V = some out
      ∧ (∀ cy, out.2 (baseIdx (bases cy)) cy
          = p (baseIdx (bases cy)) cy - lambda)
      ∧ (∀ r cy, r ≠ baseIdx (bases cy) → out.2 r cy = p r cy) := by
  unfold accumulate_covariance
  rw [if_pos hvalid]
  exact ⟨_, rfl, fun cy => by simp [residualOf],
    fun r cy hr => by simp [residualOf, hr]⟩

/-- Witness for `accumulate_covariance_residual` at a concrete input. -/
theorem accumulate_covariance_residual_witness :
    (∀ cy : Fin 1, ((fun _ => (0 : NUC)) cy).val < 4)
    ∧ (∃ out, accumulate_covariance 1 1 (fun _ _ => 0) 1 (fun _ => (0 : NUC))
          (fun _ _ _ => 0) = some out
      ∧ (∀ cy, out.2 (baseIdx ((fun _ => (0 : NUC)) cy)) cy
          = (fun _ _ => (0 : ℚ)) (baseIdx ((fun _ => (0 : NUC)) cy)) cy - 1)
      ∧ (∀ r cy, r ≠ baseIdx ((fun _ => (0 : NUC)) cy) →
          out.2 r cy = (fun _ _ => (0 : ℚ)) r cy)) :=
  ⟨by decide, accumulate_covariance_residual 1 1 (fun _ _ => 0) 1
    (fun _ => (0 : NUC)) (fun _ _ _ => 0) (by decide)⟩

/-- Datablock type (datablock.h, not under src/): modelled from the spec,
`type ∈ {READ, CONCAT, IGNORE}`. -/
inductive BlockType where
  | read : BlockType
  | concat : BlockType
  | ignore : BlockType
deriving DecidableEq

/-- One decoded block of the block specification: a type and a positive
cycle count `num`. -/
structure DataBlock where
  btype : BlockType
  num : ℕ
deriving DecidableEq

/-- The raw-tile columns `[colstart .. colstart+num-1]` a block covers
(the C computes `colend = colstart + num - 1` and takes the inclusive
range). -/
def blockCols (colstart num : ℕ) : List ℕ :=
  (List.range num).map (fun i => colstart + i)

/-- State of the `create_datablocks` traversal: the completed sub-tiles
(`tileblock[0..blk-1]`), the current sub-tile slot `tileblock[blk]`
(`none` for a still-`NULL` slot), and the column cursor `colstart`.  A
sub-tile is represented by the list of raw-tile column indices it holds
(`copy_append_TILE`, whose source tile.c is not under src/, is modelled
from the spec: append columns `[colstart, colend]` of the main tile,
creating the destination when it is empty). -/
structure DBState where
  done : List (List ℕ)
  cur : Option (List ℕ)
  colstart : ℕ

/-- The sub-tiles already materialised in slot order, the current one
last (the non-`NULL` prefix of the `tileblock` array). -/
def dbFlush (st : DBState) : List (List ℕ) :=
  st.done ++ (match st.cur with | some t => [t] | none => [])

/-- One iteration of the `while (datablock != NULL)` loop of
`create_datablocks` (ayb_model.c): `E_READ` advances `blk` when
`tileblock[blk]` is non-`NULL` and falls through to `E_CONCAT`, which
appends the block's columns to `tileblock[blk]` (creating it when
`NULL`); `E_IGNORE` only advances the column cursor. -/
def dbStep (st : DBState) (b : DataBlock) : DBState :=
  match b.btype with
  | .read =>
      { done := st.done ++ (match st.cur with | some t => [t] | none => []),
        cur := some (blockCols st.colstart b.num),
        colstart := st.colstart + b.num }
  | .concat =>
      { done := st.done,
        cur := some (st.cur.getD [] ++ blockCols st.colstart b.num),
        colstart := st.colstart + b.num }
  | .ignore =>
      { done := st.done, cur := st.cur, colstart := st.colstart + b.num }

/-- Embedding of `create_datablocks` from ayb_model.c: traverse the
decoded block specification from column 0 and return the sub-tiles
produced. -/
def create_datablocks (blocks : List DataBlock) : List (List ℕ) :=
  dbFlush (blocks.foldl dbStep { done := [], cur := none, colstart := 0 })

/-- Helper: the column cursor advances by exactly `num` for every block,
whatever its type. -/
theorem dbFold_colstart (blocks : List DataBlock) :
    ∀ st : DBState, (blocks.foldl dbStep st).colstart
      = st.colstart + (blocks.map (fun b => b.num)).sum := by
  induction blocks with
  | nil => intro st; simp
  | cons b rest ih =>
    intro st
    rw [List.foldl_cons, ih]
    have hstep : (dbStep st b).colstart = st.colstart + b.num := by
      unfold dbStep
      match b with
      | ⟨.read, n⟩ => rfl
      | ⟨.concat, n⟩ => rfl
      | ⟨.ignore, n⟩ => rfl
    rw [hstep]
    simp [List.sum_cons]
    ring

/-- C7: every block consumes exactly its `num` columns of the raw tile
in specification order — the cursor after any prefix is the sum of the
`num` fields; `IGNORE` advances the cursor producing nothing, `READ`
closes the current sub-tile (when one exists) and starts a new one from
its own columns, `CONCAT` extends the current sub-tile with its columns;
and the spec `3R,2C,2I,3R` on a 10-cycle tile yields exactly two
sub-tiles, of 5 and 3 cycles: columns `[0..4]` and `[7..9]`. -/
theorem create_datablocks_spec :
    (∀ (blocks : List DataBlock) (st : DBState),
      (blocks.foldl dbStep st).colstart
        = st.colstart + (blocks.map (fun b => b.num)).sum)
    ∧ (∀ st n, dbStep st ⟨.ignore, n⟩
        = { done := st.done, cur := st.cur, colstart := st.colstart + n })
    ∧ (∀ st n, dbStep st ⟨.read, n⟩
        = { done := st.done ++ (match st.cur with | some t => [t] | none => []),
            cur := some (blockCols st.colstart n),
            colstart := st.colstart + n })
    ∧ (∀ st n, dbStep st ⟨.concat, n⟩
        = { done := st.done,
            cur := some (st.cur.getD [] ++ blockCols st.colstart n),
            colstart := st.colstart + n })
    ∧ create_datablocks
        [⟨.read, 3⟩, ⟨.concat, 2⟩, ⟨.ignore, 2⟩, ⟨.read, 3⟩]
        = [[0, 1, 2, 3, 4], [7, 8, 9]]
    ∧ (create_datablocks
        [⟨.read, 3⟩, ⟨.concat, 2⟩, ⟨.ignore, 2⟩, ⟨.read, 3⟩]).map
          List.length = [5, 3] :=
  ⟨dbFold_colstart, fun _ _ => rfl, fun _ _ => rfl, fun _ _ => rfl,
    by decide, by decide⟩

/-- C6 counterexample: a `CONCAT` block with no current sub-tile does
not fail — `create_datablocks` materialises a sub-tile holding exactly
that block's columns (here columns 0 and 1), since `copy_append_TILE`
creates the destination tile when it is `NULL`; the function has no
`BAD_BLOCKSPEC` (or any other error) path. -/
theorem concat_no_subtile_counterexample :
    create_datablocks [⟨.concat, 2⟩] = [blockCols 0 2]
    ∧ create_datablocks [⟨.concat, 2⟩] = [[0, 1]] := by
  constructor <;> decide

/-- C6 amended: when the engine encounters a `CONCAT` block and no
current sub-tile exists, it does not raise `BAD_BLOCKSPEC`: it starts a
sub-tile from exactly that block's columns (behaving like `READ`),
leaving the completed sub-tiles untouched; any rejection of such a
specification must happen upstream of `create_datablocks`. -/
theorem concat_no_subtile_amended (done : List (List ℕ)) (cs n : ℕ) :
    dbStep { done := done, cur := none, colstart := cs } ⟨.concat, n⟩
      = { done := done, cur := some (blockCols cs n), colstart := cs + n } := by
  unfold dbStep
  simp [Option.getD]

/-- Number of inner parameter-estimation iterations, `AYB_NITER`
(ayb_model.c). -/
def AYB_NITER : ℕ := 20

/-- The working state of the inner loop of `estimate_MPN` (ayb_model.c):
the Kronecker-structured sufficient statistics `J, K, S̄` with their
precomputed transposes, the unscaled statistics `Ī, w̄` and the cycle
variances (which the loop never rescales), the accumulated lambda factor,
and the matrices `Mᵀ`, `P`, `N` being estimated. -/
structure MPNState (nc : ℕ) where
  J : Mat (4 * nc) (4 * nc)
  Jt : Mat (4 * nc) (4 * nc)
  Kmat : Mat 16 (nc * nc)
  Kt : Mat (nc * nc) 16
  Sbar : Mat 4 nc
  SbarT : Mat nc 4
  Ibar : Mat 4 nc
  IbarT : Mat nc 4
  Wbar : ℚ
  cvar : Fin nc → ℚ
  lambdaf : ℚ
  matMt : Mat 4 4
  matP : Mat nc nc
  matN : Mat 4 nc

/-- The numerical kernels `estimate_MPN` calls whose sources (mpn.c and
matrix.c) are not under src/.  `solveP`/`solveM` return the right-hand
side left by `solverSVD` after solving the `(P,N)` (resp. `(M,N)`) block
system assembled from the current state, as a flat `lda`-major array
read `rhs (row) (col)`; `normP`/`normM` are `normalise_MAT`, returning
the unit-determinant rescaling of their argument together with the scale
factor `d`; `deltaLSE` is `calculateDeltaLSE`.  The claims proved below
hold for every choice of these kernels, in particular for the
spec-described ones. -/
structure MPNKernels (nc : ℕ) where
  solveP : MPNState nc → ℕ → ℕ → ℚ
  solveM : MPNState nc → ℕ → ℕ → ℚ
  normP : Mat nc nc → Mat nc nc × ℚ
  normM : Mat 4 4 → Mat 4 4 × ℚ
  deltaLSE : Mat 4 4 → Mat nc nc → Mat 4 nc →
    Mat (4 * nc) (4 * nc) → Mat 16 (nc * nc) → ℚ

/-- First half of the inner loop body of `estimate_MPN` (ayb_model.c):
solve for phasing and noise, extract `P` from `prhs->x[i*lda+j]`
(`j<ncycle`) and `N` from `prhs->x[i*lda+ncycle+j]` (`j<NBASE`), then
normalise `det(P) = 1` obtaining scale `det`, rescale
`J, Jt` by `det*det`, `K, Kt, Sbar, SbarT` by `det`, and accumulate
`lambdaf *= det`.  Returns the new state and the scale factor. -/
def mpnHalfP (nc : ℕ) (ker : MPNKernels nc) (st : MPNState nc) :
    MPNState nc × ℚ :=
  let prhs := ker.solveP st
  let matP1 : Mat nc nc := fun j i => prhs j.val i.val
  let matN1 : Mat 4 nc := fun j i => prhs (nc + j.val) i.val
  let nm := ker.normP matP1
  ({ J := scale_MAT (nm.2 * nm.2) st.J, Jt := scale_MAT (nm.2 * nm.2) st.Jt,
     Kmat := scale_MAT nm.2 st.Kmat, Kt := scale_MAT nm.2 st.Kt,
     Sbar := scale_MAT nm.2 st.Sbar, SbarT := scale_MAT nm.2 st.SbarT,
     Ibar := st.Ibar, IbarT := st.IbarT, Wbar := st.Wbar, cvar := st.cvar,
     lambdaf := st.lambdaf * nm.2,
     matMt := st.matMt, matP := nm.1, matN := matN1 }, nm.2)

/-- Second half of the inner loop body of `estimate_MPN` (ayb_model.c):
solve for crosstalk and noise, extract `Mᵀ` from `mrhs->x[i*lda+j]`
(`i,j<NBASE`) and `N` (transposed layout) from `mrhs->x[i*lda+j+NBASE]`,
then normalise `det(M) = 1` and rescale the sufficient statistics and
`lambdaf` symmetrically. -/
def mpnHalfM (nc : ℕ) (ker : MPNKernels nc) (st : MPNState nc) :
    MPNState nc × ℚ :=
  let mrhs := ker.solveM st
  let matMt1 : Mat 4 4 := fun j i => mrhs j.val i.val
  let matN1 : Mat 4 nc := fun i j => mrhs (4 + j.val) i.val
  let nm := ker.normM matMt1
  ({ J := scale_MAT (nm.2 * nm.2) st.J, Jt := scale_MAT (nm.2 * nm.2) st.Jt,
     Kmat := scale_MAT nm.2 st.Kmat, Kt := scale_MAT nm.2 st.Kt,
     Sbar := scale_MAT nm.2 st.Sbar, SbarT := scale_MAT nm.2 st.SbarT,
     Ibar := st.Ibar, IbarT := st.IbarT, Wbar := st.Wbar, cvar := st.cvar,
     lambdaf := st.lambdaf * nm.2,
     matMt := nm.1, matP := st.matP, matN := matN1 }, nm.2)

/-- One full inner iteration of `estimate_MPN`: the `(P,N)` half followed
by the `(M,N)` half. -/
def mpnIter (nc : ℕ) (ker : MPNKernels nc) (st : MPNState nc) :
    MPNState nc :=
  (mpnHalfM nc ker (mpnHalfP nc ker st).1).1

/-- Result surfaced by `estimate_MPN`: the updated model matrices, the
rescaled cluster brightnesses and the returned value `sumLSS − delta`. -/
structure MPNResult (nc nclust : ℕ) where
  M : Mat 4 4
  P : Mat nc nc
  N : Mat 4 nc
  lambda : Fin nclust → ℚ
  ret : ℚ

/-- Embedding of the tail of `estimate_MPN` (ayb_model.c): run the inner
loop `AYB_NITER` times, compute `delta = calculateDeltaLSE(Mᵀ, P, N, J,
K)`, transpose `Mᵀ` back to normal form, scale every cluster brightness
by the accumulated `lambdaf`, and return `sumLSS − delta`. -/
def estimate_MPN_core (nc nclust : ℕ) (ker : MPNKernels nc)
    (sumLSS : ℚ) (st0 : MPNState nc) (lambda0 : Fin nclust → ℚ) :
    MPNResult nc nclust :=
  let stF := (mpnIter nc ker)^[AYB_NITER] st0
  { M := matTranspose stF.matMt, P := stF.matP, N := stF.matN,
    lambda := fun cl => stF.lambdaf * lambda0 cl,
    ret := sumLSS - ker.deltaLSE stF.matMt stF.matP stF.matN stF.J stF.Kmat }

/-- C2: in every inner iteration, immediately after the
unit-determinant normalisation of `P` returns scale `d`, the statistic
`J` (and `Jᵀ`) has been multiplied by `d²`, `K` and `S̄` (and their
transposes) by `d`, and the accumulated factor by `d`; symmetrically for
the `Mᵀ` half; over a full iteration the two scales compose; and after
the inner loop `estimate_MPN` returns `Mᵀ` to normal form (the surfaced
crosstalk is its transpose), multiplies every cluster brightness by the
accumulated factor, and returns `sumLSS` minus the closed-form
`calculateDeltaLSE` of the final `Mᵀ, P, N, J, K`. -/
theorem estimate_MPN_spec (nc nclust : ℕ) (ker : MPNKernels nc)
    (st : MPNState nc) (sumLSS : ℚ) (st0 : MPNState nc)
    (lambda0 : Fin nclust → ℚ) :
    ((mpnHalfP nc ker st).1.J
        = scale_MAT ((mpnHalfP nc ker st).2 * (mpnHalfP nc ker st).2) st.J
      ∧ (mpnHalfP nc ker st).1.Jt
        = scale_MAT ((mpnHalfP nc ker st).2 * (mpnHalfP nc ker st).2) st.Jt
      ∧ (mpnHalfP nc ker st).1.Kmat = scale_MAT (mpnHalfP nc ker st).2 st.Kmat
      ∧ (mpnHalfP nc ker st).1.Kt = scale_MAT (mpnHalfP nc ker st).2 st.Kt
      ∧ (mpnHalfP nc ker st).1.Sbar = scale_MAT (mpnHalfP nc ker st).2 st.Sbar
      ∧ (mpnHalfP nc ker st).1.SbarT = scale_MAT (mpnHalfP nc ker st).2 st.SbarT
      ∧ (mpnHalfP nc ker st).1.lambdaf = st.lambdaf * (mpnHalfP nc ker st).2)
    ∧ ((mpnHalfM nc ker st).1.J
        = scale_MAT ((mpnHalfM nc ker st).2 * (mpnHalfM nc ker st).2) st.J
      ∧ (mpnHalfM nc ker st).1.Kmat = scale_MAT (mpnHalfM nc ker st).2 st.Kmat
      ∧ (mpnHalfM nc ker st).1.Sbar = scale_MAT (mpnHalfM nc ker st).2 st.Sbar
      ∧ (mpnHalfM nc ker st).1.lambdaf = st.lambdaf * (mpnHalfM nc ker st).2)
    ∧ (mpnIter nc ker st).J
        = scale_MAT
            (((mpnHalfP nc ker st).2 * (mpnHalfM nc ker (mpnHalfP nc ker st).1).2)
              * ((mpnHalfP nc ker st).2 * (mpnHalfM nc ker (mpnHalfP nc ker st).1).2))
            st.J
    ∧ (mpnIter nc ker st).Sbar
        = scale_MAT
            ((mpnHalfP nc ker st).2 * (mpnHalfM nc ker (mpnHalfP nc ker st).1).2)
            st.Sbar
    ∧ (mpnIter nc ker st).lambdaf
        = st.lambdaf
            * ((mpnHalfP nc ker st).2 * (mpnHalfM nc ker (mpnHalfP nc ker st).1).2)
    ∧ ((estimate_MPN_core nc nclust ker sumLSS st0 lambda0).M
        = matTranspose ((mpnIter nc ker)^[AYB_NITER] st0).matMt
      ∧ (estimate_MPN_core nc nclust ker sumLSS st0 lambda0).lambda
        = (fun cl => ((mpnIter nc ker)^[AYB_NITER] st0).lambdaf * lambda0 cl)
      ∧ (estimate_MPN_core nc nclust ker sumLSS st0 lambda0).ret
        = sumLSS - ker.deltaLSE
            ((mpnIter nc ker)^[AYB_NITER] st0).matMt
            ((mpnIter nc ker)^[AYB_NITER] st0).matP
            ((mpnIter nc ker)^[AYB_NITER] st0).matN
            ((mpnIter nc ker)^[AYB_NITER] st0).J
            ((mpnIter nc ker)^[AYB_NITER] st0).Kmat) := by
  refine ⟨⟨rfl, rfl, rfl, rfl, rfl, rfl, rfl⟩, ⟨rfl, rfl, rfl, rfl⟩,
    ?_, ?_, ?_, rfl, rfl, rfl⟩
  · dsimp only [mpnIter, mpnHalfP, mpnHalfM]
    funext i j
    simp only [scale_MAT]
    ring
  · dsimp only [mpnIter, mpnHalfP, mpnHalfM]
    funext i j
    simp only [scale_MAT]
    ring
  · dsimp only [mpnIter, mpnHalfP, mpnHalfM]
    ring

/-- Arithmetic mean of `n` values (`mean` of statistics.c, not under
src/; modelled from the spec). -/
def statMean (n : ℕ) (x : Fin n → ℚ) : ℚ := (∑ cl, x cl) / n

/-- Variance of `n` values (`variance` of statistics.c, not under src/;
modelled from the spec). -/
def statVariance (n : ℕ) (x : Fin n → ℚ) : ℚ :=
  (∑ cl, (x cl - statMean n x) ^ 2) / n

/-- Cauchy influence weight (`cauchy` of statistics.c, not under src/).
Modelled from the spec: a `x/(x+s)`-style influence that is ≈1 near the
centre (`x = 0`) and tends to 0 in the tails, i.e. `s / (s + x)`. -/
def cauchy (x s : ℚ) : ℚ := s / (s + x)

/-- Brightness by ordinary least squares (`estimate_lambdaOLS` of
lambda.c, not under src/).  Modelled from the spec: OLS on the
regression `p[b,k] = λ·1{bases[k]=b}`, returning 0 when the denominator
is not positive and never a negative value. -/
def estimate_lambdaOLS (nc : ℕ) (p : Mat 4 nc) (bases : Fin nc → NUC) : ℚ :=
  let num := ∑ cy, if (bases cy).val < 4 then p (baseIdx (bases cy)) cy else 0
  let den := ∑ cy, if (bases cy).val < 4 then (1 : ℚ) else 0
  if den ≤ 0 then 0 else max 0 (num / den)

/-- Brightness by weighted least squares (`estimate_lambdaWLS` of
lambda.c, not under src/).  Modelled from the spec: cycles weighted by
`1/cycle_var[k]`, cycles with `cycle_var[k] ≤ 0` excluded, falling back
to the previous `λ` when no usable cycle remains, and never negative. -/
def estimate_lambdaWLS (nc : ℕ) (p : Mat 4 nc) (bases : Fin nc → NUC)
    (lambda_prev : ℚ) (cvar : Fin nc → ℚ) : ℚ :=
  let num := ∑ cy, if 0 < cvar cy ∧ (bases cy).val < 4 then
      p (baseIdx (bases cy)) cy / cvar cy else 0
  let den := ∑ cy, if 0 < cvar cy ∧ (bases cy).val < 4 then
      1 / cvar cy else 0
  if den ≤ 0 then lambda_prev else max 0 (num / den)

/-- The 16 values of `INITIAL_CROSSTALK` (ayb_model.c), in array order. -/
def initialCrosstalkList : List ℚ :=
  [2.0114300, 1.7217841, 0.06436576, 0.1126401,
   0.6919319, 1.8022413, 0.06436576, 0.0804572,
   0.2735545, 0.2252802, 1.39995531, 0.9976693,
   0.2896459, 0.2413716, 0.11264008, 1.3194981]

/-- The built-in crosstalk prior, `new_MAT_from_array(NBASE, NBASE,
INITIAL_CROSSTALK)` under the column-major storage convention. -/
def initialCrosstalk : Mat 4 4 :=
  fun r c => initialCrosstalkList.getD (c.val * 4 + r.val) 0

/-- Externally supplied seed matrices (the `Matrix[]` module array of
ayb_model.c, filled once by `read_matrices` before any tile is
analysed).  The noise and phasing seeds carry the cycle dimension they
were read with so that `init_matrix` can reject a dimension mismatch. -/
structure SeedMats where
  Mseed : Option (Mat 4 4)
  Nseed : Option ((k : ℕ) × Mat 4 k)
  Pseed : Option ((k : ℕ) × Mat k k)

/-- The `exp` of libm and the `quality_from_prob` Phred mapping used by
`call_base` — code external to this repository, supplied as functions. -/
structure CallKernels where
  fexp : ℚ → ℚ
  qualityFromProb : ℚ → ℚ

/-- The per-block-size numerical kernels of the MPN estimator whose
sources are not under src/: the `MPNKernels` of the inner loop plus
`calculateJ` and `calculateK` (mpn.c), which build the
Kronecker-structured sufficient statistics from the cluster weights,
brightnesses, calls and intensities. -/
structure BlockKernels (nc : ℕ) where
  mpn : MPNKernels nc
  calcJ : (ncl : ℕ) → (Fin ncl → ℚ) → (Fin ncl → ℚ) →
    (Fin ncl → Fin nc → NUC) → Mat (4 * nc) (4 * nc)
  calcK : (ncl : ℕ) → (Fin ncl → ℚ) → (Fin ncl → ℚ) →
    (Fin ncl → Fin nc → NUC) → (Fin ncl → Mat 4 nc) → Mat 16 (nc * nc)

/-- Embedding of `calculateSbar` (mpn.c, not under src/).  Modelled from
the spec: `S̄ = Σᵢ wᵢ λᵢ Sᵢ` with `Sᵢ` the B×K indicator of cluster
`i`'s current calls. -/
def calcSbar (nc ncl : ℕ) (lambda we : Fin ncl → ℚ)
    (bases : Fin ncl → Fin nc → NUC) : Mat 4 nc :=
  fun b k => ∑ cl, we cl * lambda cl *
    (if (bases cl k).val < 4 ∧ baseIdx (bases cl k) = b then 1 else 0)

/-- Embedding of `calculateIbar` (mpn.c, not under src/).  Modelled from
the spec: `Ī = Σᵢ wᵢ Iᵢ`. -/
def calcIbar (nc ncl : ℕ) (we : Fin ncl → ℚ)
    (tile : Fin ncl → Mat 4 nc) : Mat 4 nc :=
  fun b k => ∑ cl, we cl * tile cl b k

/-- Embedding of `calculateWbar` (mpn.c, not under src/).  Modelled from
the spec: `w̄ = Σᵢ wᵢ`. -/
def calcWbar (ncl : ℕ) (we : Fin ncl → ℚ) : ℚ := ∑ cl, we cl

/-- The process-scope tuning of the driver, set once before base calling
begins: iteration count `NIter`, output format (`true` = FASTQ), the
quality tolerance `Mu`, the optional seed matrices, and the numerical
kernels whose sources are not under src/. -/
structure AybConfig where
  niter : ℕ
  outFormat : Bool
  Mu : ℚ
  seeds : SeedMats
  call : CallKernels
  kernels : (nc : ℕ) → BlockKernels nc

/-- The AYB model state for one sub-tile (`struct AybT`, ayb_model.c). -/
structure AybState (nc ncl : ℕ) where
  M : Mat 4 4
  P : Mat nc nc
  N : Mat 4 nc
  lambda : Fin ncl → ℚ
  we : Fin ncl → ℚ
  cycle_var : Fin nc → ℚ
  bases : Fin ncl → Fin nc → NUC
  quals : Fin ncl → Fin nc → ℚ
  tile : Fin ncl → Mat 4 nc

/-- Embedding of `new_AYB` (ayb_model.c): freshly allocated, so all
matrices and arrays are zero-filled (`new_MAT` and the `calloc`-backed
arrays), with the sub-tile's intensities installed (`analyse_tile`
replaces the empty tile by a copy of the current block's tile). -/
def new_AYB (nc ncl : ℕ) (tile : Fin ncl → Mat 4 nc) : AybState nc ncl :=
  { M := fun _ _ => 0, P := fun _ _ => 0, N := fun _ _ => 0,
    lambda := fun _ => 0, we := fun _ => 0, cycle_var := fun _ => 0,
    bases := fun _ _ => 0, quals := fun _ _ => 0, tile := tile }

/-- Embedding of `initialise_model` (ayb_model.c): seed `M` from the
external crosstalk or the built-in prior, `N` from the external noise or
zero, `P` from the external phasing or the identity (rejecting a seed of
the wrong dimension, as `copyinto_MAT` does); set all weights and cycle
variances to 1; then process each cluster's intensities with the
pre-transposed inverses, call initial bases with the simple caller, set
all qualities to `MIN_QUALITY` and estimate the initial brightness by
OLS. -/
def initialise_model (cfg : AybConfig) (nc ncl : ℕ)
    (st : AybState nc ncl) : Option (AybState nc ncl) :=
  let M1 := cfg.seeds.Mseed.getD initialCrosstalk
  let N1? : Option (Mat 4 nc) :=
    match cfg.seeds.Nseed with
    | none => some (fun _ _ => 0)
    | some s => if h : s.1 = nc then some (h ▸ s.2) else none
  let P1? : Option (Mat nc nc) :=
    match cfg.seeds.Pseed with
    | none => some 1
    | some s => if h : s.1 = nc then some (h ▸ s.2) else none
  match N1?, P1? with
  | some N1, some P1 =>
    let Minv_t := matTranspose (invert M1)
    let Pinv_t := matTranspose (invert P1)
    let pcl := fun cl => process_intensities nc (st.tile cl) Minv_t Pinv_t N1 none
    let bases1 := fun cl cy => call_base_simple (fun b => pcl cl b cy)
    some { st with
      M := M1, P := P1, N := N1,
      we := fun _ => 1, cycle_var := fun _ => 1,
      bases := bases1,
      quals := fun _ _ => MIN_QUALITY,
      lambda := fun cl => estimate_lambdaOLS nc (pcl cl) (bases1 cl) }
  | _, _ => none

/-- Embedding of `update_cluster_weights` (ayb_model.c): per cluster the
least-squares error of the observed intensities against the expected
intensities, then robustness weights from the Cauchy influence of the
squared deviation from the mean; returns the new weights and `sumLSS`. -/
def update_cluster_weights (nc ncl : ℕ) (st : AybState nc ncl) :
    (Fin ncl → ℚ) × ℚ :=
  let e := fun cl =>
    expected_intensities nc (st.lambda cl) (st.bases cl) st.M st.P st.N none
  let lss := fun cl => ∑ b, ∑ k, (st.tile cl b k - e cl b k) ^ 2
  let meanL := statMean ncl lss
  let varL := statVariance ncl lss
  (fun cl => cauchy ((lss cl - meanL) ^ 2) varL, ∑ cl, lss cl)

/-- Embedding of `estimate_MPN` (ayb_model.c) at the driver level:
recompute the cluster weights, build the sufficient statistics
`J, K, S̄, Ī, w̄` and their transposes, transpose `M` in place, run the
inner loop via `estimate_MPN_core`, and install the updated
`M, P, N, λ` and weights in the model state; returns the state and
`sumLSS − delta`. -/
def estimate_MPN_driver (nc ncl : ℕ) (ker : BlockKernels nc)
    (st : AybState nc ncl) : AybState nc ncl × ℚ :=
  let uw := update_cluster_weights nc ncl st
  let we1 := uw.1
  let J0 := ker.calcJ ncl st.lambda we1 st.bases
  let K0 := ker.calcK ncl st.lambda we1 st.bases st.tile
  let S0 := calcSbar nc ncl st.lambda we1 st.bases
  let I0 := calcIbar nc ncl we1 st.tile
  let st0 : MPNState nc :=
    { J := J0, Jt := matTranspose J0, Kmat := K0, Kt := matTranspose K0,
      Sbar := S0, SbarT := matTranspose S0,
      Ibar := I0, IbarT := matTranspose I0,
      Wbar := calcWbar ncl we1, cvar := st.cycle_var, lambdaf := 1,
      matMt := matTranspose st.M, matP := st.P, matN := st.N }
  let res := estimate_MPN_core nc ncl ker.mpn uw.2 st0 st.lambda
  ({ st with
      M := res.M, P := res.P, N := res.N,
      lambda := res.lambda, we := we1 }, res.ret)

/-- Embedding of `estimate_bases` (ayb_model.c): covariance and `Ω` per
cycle, then per cluster re-process the intensities, re-estimate `λ` by
WLS, re-call every cycle with `call_base` and re-estimate `λ` with the
new calls.  The `call_base` of this snapshot's ayb_model.c passes no
penalty vector, so the penalties are zero here. -/
def estimate_bases_driver (cfg : AybConfig) (nc ncl : ℕ)
    (st : AybState nc ncl) : Option (AybState nc ncl) :=
  let Minv_t := matTranspose (invert st.M)
  let Pinv_t := matTranspose (invert st.P)
  let clusters := (List.finRange ncl).map (fun cl =>
    ClusterInfo.mk (st.we cl) (st.lambda cl) (st.bases cl) (st.tile cl))
  match calculate_covariance nc Minv_t Pinv_t st.N clusters with
  | none => none
  | some V =>
    let cvar1 := cycle_var_of nc V
    let Om := omega_of nc V
    let pcl := fun cl => process_intensities nc (st.tile cl) Minv_t Pinv_t st.N none
    let lam1 := fun cl =>
      estimate_lambdaWLS nc (pcl cl) (st.bases cl) (st.lambda cl) cvar1
    let bq := fun cl cy =>
      call_base (fun b => pcl cl b cy) (lam1 cl) (fun _ => 0) (Om cy)
        cfg.call.fexp cfg.call.qualityFromProb cfg.Mu
    let bases1 := fun cl cy => ((bq cl cy).1).castSucc
    let lam2 := fun cl =>
      estimate_lambdaWLS nc (pcl cl) (bases1 cl) (lam1 cl) cvar1
    some { st with
            bases := bases1, quals := fun cl cy => (bq cl cy).2,
            lambda := lam2, cycle_var := cvar1 }

/-- The base-calling loop of `analyse_tile` (ayb_model.c): `NIter`
rounds of `estimate_MPN` followed by `estimate_bases`. -/
def aybLoop (cfg : AybConfig) (nc ncl : ℕ) (ker : BlockKernels nc) :
    ℕ → AybState nc ncl → Option (AybState nc ncl)
  | 0, st => some st
  | n + 1, st =>
    match estimate_bases_driver cfg nc ncl
        (estimate_MPN_driver nc ncl ker st).1 with
    | none => none
    | some st2 => aybLoop cfg nc ncl ker n st2

/-- One sub-tile of the raw tile as produced by `create_datablocks`,
with the per-cluster intensity matrices of its cycles. -/
structure BlockTile where
  ncycle : ℕ
  nclust : ℕ
  signals : Fin nclust → Mat 4 ncycle

/-- What `output_results` (ayb_model.c) emits for one sub-tile: the base
array, and the quality array exactly when the output format is FASTQ. -/
def BlockOut : Type :=
  (nc : ℕ) × (ncl : ℕ) × (Fin ncl → Fin nc → NUC)
    × Option (Fin ncl → Fin nc → ℚ)

/-- Embedding of `output_results` (ayb_model.c): surface the bases and,
for FASTQ output, the qualities of the analysed sub-tile. -/
def output_results (fmt : Bool) (nc ncl : ℕ) (st : AybState nc ncl) :
    BlockOut :=
  ⟨nc, ncl, st.bases, if fmt then some st.quals else none⟩

/-- The per-block body of `analyse_tile` (ayb_model.c): a fresh model
state for the sub-tile, initialisation, `NIter` base-calling rounds,
then the emitted result; `none` when initialisation fails (the C logs
`E_INIT_FAIL_DD` and emits nothing for this block). -/
def analyseBlock (cfg : AybConfig) (bt : BlockTile) : Option BlockOut :=
  let st := new_AYB bt.ncycle bt.nclust bt.signals
  match initialise_model cfg bt.ncycle bt.nclust st with
  | none => none
  | some st1 =>
    match aybLoop cfg bt.ncycle bt.nclust (cfg.kernels bt.ncycle)
        cfg.niter st1 with
    | none => none
    | some stF => some (output_results cfg.outFormat bt.ncycle bt.nclust stF)

/-- The module-level `Ayb` slot of ayb_model.c (`static AYB Ayb`): the
only mutable state that survives between sub-tiles. -/
def AybGlobal : Type := Option ((nc : ℕ) × (ncl : ℕ) × AybState nc ncl)

/-- Embedding of the block loop of `analyse_tile` (ayb_model.c): for
each sub-tile in order, the global `Ayb` slot is overwritten by
`new_AYB` (so the incoming value is never read), the block is analysed
and its result emitted, and the slot is freed (`Ayb = free_AYB(Ayb)`,
i.e. reset to `NULL`) before the next block. -/
def analyse_tile (cfg : AybConfig) (blocks : List BlockTile)
    (g0 : AybGlobal) : List (Option BlockOut) × AybGlobal :=
  blocks.foldl (fun acc bt => (acc.1 ++ [analyseBlock cfg bt], none))
    ([], g0)

/-- Helper: the block loop of `analyse_tile` emits, after any prefix,
exactly the per-block results, regardless of the incoming global `Ayb`
slot. -/
theorem analyse_tile_fold (cfg : AybConfig) :
    ∀ (blocks : List BlockTile) (pre : List (Option BlockOut)) (g : AybGlobal),
      (blocks.foldl (fun acc bt => (acc.1 ++ [analyseBlock cfg bt], none))
        (pre, g)).1 = pre ++ blocks.map (analyseBlock cfg) := by
  intro blocks
  induction blocks with
  | nil => intro pre g; simp
  | cons bt rest ih =>
    intro pre g
    rw [List.foldl_cons]
    dsimp only
    rw [ih (pre ++ [analyseBlock cfg bt]) none]
    simp

/-- C9: the emitted results of `analyse_tile` are a pure function of the
sub-tiles and the tuning configuration — each sub-tile's `(bases, quals)`
comes from `analyseBlock` of that sub-tile alone (no state flows between
sub-tiles, since `new_AYB` overwrites the global slot before each block
and it is freed after), the incoming global model state is irrelevant,
and two runs on the same tile and tuning produce identical outputs. -/
theorem analyse_tile_deterministic (cfg : AybConfig)
    (blocks : List BlockTile) (g0 g1 : AybGlobal) :
    (analyse_tile cfg blocks g0).1 = blocks.map (analyseBlock cfg)
    ∧ (analyse_tile cfg blocks g0).1 = (analyse_tile cfg blocks g1).1 := by
  constructor
  · unfold analyse_tile
    exact (analyse_tile_fold cfg blocks [] g0).trans (List.nil_append _)
  · unfold analyse_tile
    exact ((analyse_tile_fold cfg blocks [] g0).trans
      (analyse_tile_fold cfg blocks [] g1).symm)
